import Mathlib

/-!
# Caesar cipher tool: cipher engine and text analyser

A shallow embedding of the pure functions of `src/script.js`
(`CaesarCipher.caesarEncrypt`, `CaesarCipher.caesarDecrypt`,
`CipherAnalyzer.analyzeText`, `CipherAnalyzer.frequencyAnalysis`,
`CipherAnalyzer.suggestDecryption`, `CipherAnalyzer.calculateReadabilityScore`)
and of `src/caesar-cipher-tool/app.js` (`validateShift`, `caesarCipher`).

Modelling conventions.

* A JavaScript string is its sequence of UTF-16 code units: `JSString = List Nat`.
  `text.split('')`, `charCodeAt(0)`, `String.fromCharCode`, `text.length` and a
  regular expression without the `u` flag all work on code units.
* A shift is an `Int`. JavaScript numbers are doubles. `caesarCipher` (app.js)
  reduces the shift with `%` before it is added to a letter index, which is
  exact on every integer-valued double. `caesarEncrypt` and `caesarDecrypt`
  (script.js) add the shift to the letter index first; that sum is exact only
  while the shift is below `2^53 - 51` in magnitude, beyond which the double
  addition rounds. The `Int` model of these two functions stands for the code
  on that range only, and every statement below that depends on their letter
  arithmetic is made for shifts between -1 and 27.
* The JavaScript `%` operator is the truncated remainder, `Int.tmod`
  (the result has the sign of the dividend).
* `String.fromCharCode n` is the code unit `n mod 2^16` (`ToUint16`).
-/

namespace CaesarCipherTool

/-- A JavaScript string, as the list of its UTF-16 code units. -/
abbrev JSString := List Nat

/-- The code units of a Lean string literal whose characters are all in the
Basic Multilingual Plane (used to write ASCII examples). -/
def ofString (s : String) : JSString := s.toList.map Char.toNat

/-- Character class `[A-Z]` on one code unit. -/
def isUpperAZ (c : Nat) : Bool := decide (65 ≤ c) && decide (c ≤ 90)

/-- Character class `[a-z]` on one code unit. -/
def isLowerAZ (c : Nat) : Bool := decide (97 ≤ c) && decide (c ≤ 122)

/-- Character class `[a-zA-Z]` on one code unit: `char.match(/[a-zA-Z]/)`. -/
def isAsciiLetter (c : Nat) : Bool := isLowerAZ c || isUpperAZ c

/-- `String.fromCharCode(n)` for an integer `n`: the code unit `ToUint16(n)`. -/
def fromCharCode (n : Int) : Nat := (n % 65536).toNat

/-- The callback of `caesarEncrypt` (script.js, lines 41-48) on one character:
`base = code >= 65 && code <= 90 ? 65 : 97`, then
`String.fromCharCode(((code - base + shift) % 26) + base)`. The sum
`code - base + shift` is taken exactly, as the code takes it for a shift below
`2^53 - 51` in magnitude; for a larger shift the code rounds the sum and the
letter it returns is not the one computed here. -/
def encryptChar (shift : Int) (code : Nat) : Nat :=
  if isAsciiLetter code then
    let base : Int := if 65 ≤ code ∧ code ≤ 90 then 65 else 97
    fromCharCode ((((code : Int) - base + shift).tmod 26) + base)
  else code

/-- `CaesarCipher.caesarEncrypt(text, shift)`:
`text.split('').map(char => ...).join('')`. -/
def caesarEncrypt (text : JSString) (shift : Int) : JSString :=
  text.map (encryptChar shift)

/-- The callback of `caesarDecrypt` (script.js, lines 53-60) on one character:
`String.fromCharCode(((code - base - shift + 26) % 26) + base)`. The sum
`code - base - shift + 26` is taken exactly, as the code takes it for a shift
below `2^53 - 51` in magnitude; for a larger shift the code rounds the sum and
the letter it returns is not the one computed here. -/
def decryptChar (shift : Int) (code : Nat) : Nat :=
  if isAsciiLetter code then
    let base : Int := if 65 ≤ code ∧ code ≤ 90 then 65 else 97
    fromCharCode ((((code : Int) - base - shift + 26).tmod 26) + base)
  else code

/-- `CaesarCipher.caesarDecrypt(text, shift)`. -/
def caesarDecrypt (text : JSString) (shift : Int) : JSString :=
  text.map (decryptChar shift)

/-- The replacer callback of `caesarCipher` (app.js, lines 34-40) on one
character matched by `/[a-zA-Z]/g`; characters that do not match are left in
place by `String.prototype.replace`. -/
def cipherChar (actualShift : Int) (code : Nat) : Nat :=
  if isAsciiLetter code then
    let isUpperCase : Bool := decide (65 ≤ code) && decide (code ≤ 90)
    let base : Int := if isUpperCase then 65 else 97
    let charCode : Int := (code : Int) - base
    let shiftedCode : Int := (charCode + actualShift).tmod 26
    fromCharCode (shiftedCode + base)
  else code

/-- The function `caesarCipher(text, shift, isEncrypt)` of app.js:
`if (!text) return ''`, `direction = isEncrypt ? 1 : -1`,
`actualShift = ((shift * direction) % 26 + 26) % 26`, then the replace. -/
def caesarCipher (text : JSString) (shift : Int) (isEncrypt : Bool) : JSString :=
  if text.isEmpty then []
  else
    let direction : Int := if isEncrypt then 1 else -1
    let actualShift : Int := (((shift * direction).tmod 26) + 26).tmod 26
    text.map (cipherChar actualShift)

/-! ## Text analyser (script.js, class `CipherAnalyzer`) -/

/-- The regular-expression class `\s` on one code unit: the ECMAScript
`WhiteSpace` and `LineTerminator` code points (TAB, LF, VT, FF, CR, SP, NBSP,
U+1680, U+2000..U+200A, U+2028, U+2029, U+202F, U+205F, U+3000, U+FEFF).
The same set is what `parseInt` skips at the start of its argument. -/
def isWhitespace (c : Nat) : Bool :=
  (decide (9 ≤ c) && decide (c ≤ 13)) || c == 32 || c == 160 || c == 5760 ||
  (decide (8192 ≤ c) && decide (c ≤ 8202)) || c == 8232 || c == 8233 ||
  c == 8239 || c == 8287 || c == 12288 || c == 65279

/-- The loop of `String.prototype.split` for the separator `/\s+/`, reading the
text left to right. `cur` holds (reversed) the characters of the piece being
read; `skipping` says that the previous character belonged to a separator
match. A white-space character that starts a match closes the current piece
(the piece is empty only when the text starts with white space); the greedy
`\s+` then swallows the white space that follows; the end of the text closes
the last piece. -/
def splitAux : JSString → JSString → Bool → List JSString
  | [], cur, _ => [cur.reverse]
  | c :: rest, cur, skipping =>
    if isWhitespace c then
      if skipping then splitAux rest [] true
      else cur.reverse :: splitAux rest [] true
    else splitAux rest (c :: cur) false

/-- The call `text.split(/\s+/)`. -/
def splitWhitespace (text : JSString) : List JSString := splitAux text [] false

/-- The record returned by `analyzeText`. -/
structure TextStats where
  totalChars : Nat
  alphabeticChars : Nat
  nonAlphabeticChars : Nat
  uppercaseChars : Nat
  lowercaseChars : Nat
  words : Nat
  deriving DecidableEq, Repr

/-- `CipherAnalyzer.analyzeText(text)` (script.js, lines 218-229).
`(text.match(/re/g) || []).length` is the number of code units in the class. -/
def analyzeText (text : JSString) : TextStats :=
  { totalChars := text.length
    alphabeticChars := text.countP isAsciiLetter
    nonAlphabeticChars := text.length - text.countP isAsciiLetter
    uppercaseChars := text.countP isUpperAZ
    lowercaseChars := text.countP isLowerAZ
    words := ((splitWhitespace text).filter (fun word => decide (word.length > 0))).length }

/-- The image of one code unit under `String.prototype.toLowerCase`, as far as
the callers in this file can observe it. Unicode lower-casing sends `A-Z` to
`a-z`, U+0130 (capital I with dot above) to the two units U+0069 U+0307, and
U+212A (KELVIN SIGN) to U+006B `k`; these are the only code units whose image
contains an ASCII letter. Every other unit is sent to units that are neither in
`a-z` nor white space, one unit to one unit; the model leaves those unchanged,
which no caller below can tell apart (`frequencyAnalysis` deletes them,
`calculateReadabilityScore` compares words with an ASCII word list and takes
their lengths). -/
def toLowerUnit (c : Nat) : JSString :=
  if isUpperAZ c then [c + 32]
  else if c = 304 then [105, 775]
  else if c = 8490 then [107]
  else [c]

/-- `text.toLowerCase()`. -/
def toLowerCase (text : JSString) : JSString := text.flatMap toLowerUnit

/-- One step of the counting loop, `frequency[char] = (frequency[char] || 0) + 1`,
on an object kept as the list of its (key, count) properties in insertion
order. -/
def bump : List (Nat × Nat) → Nat → List (Nat × Nat)
  | [], c => [(c, 1)]
  | (k, n) :: rest, c => if k = c then (k, n + 1) :: rest else (k, n) :: bump rest c

/-- `CipherAnalyzer.frequencyAnalysis(text)` (script.js, lines 231-240):
`text.toLowerCase().replace(/[^a-z]/g, '')`, then the counting loop. -/
def frequencyAnalysis (text : JSString) : List (Nat × Nat) :=
  ((toLowerCase text).filter isLowerAZ).foldl bump []

/-- The sum of all counts of a frequency table. -/
def totalCount (frequency : List (Nat × Nat)) : Nat := (frequency.map Prod.snd).sum

/-- The array `commonWords` of `calculateReadabilityScore`. -/
def commonWords : List JSString :=
  ["the", "and", "is", "in", "to", "of", "it", "you", "that", "he", "was", "for", "on",
   "are", "as", "with", "his", "they", "i", "at", "be", "this", "have", "from", "or",
   "one", "had", "by", "word", "but", "not", "what", "all", "were", "we", "when", "your",
   "can", "said", "there", "use", "an", "each", "which", "she", "do", "how", "their",
   "if", "will", "up", "other", "about", "out", "many", "then", "them", "these", "so",
   "some", "her", "would", "make", "like", "into", "him", "has", "two", "more", "go",
   "no", "way", "could", "my", "than", "first", "been", "call", "who", "oil", "its",
   "now", "find", "long", "down", "day", "did", "get", "come", "made", "may",
   "part"].map ofString

/-- The body of the loop over `words` in `calculateReadabilityScore`. -/
def scoreWord (score : Nat) (word : JSString) : Nat :=
  let score := if commonWords.contains word then score + 2 else score
  if word.length ≥ 3 ∧ word.length ≤ 8 then score + 1 else score

/-- `CipherAnalyzer.calculateReadabilityScore(text)` (script.js, lines 260-278). -/
def calculateReadabilityScore (text : JSString) : Nat :=
  (splitWhitespace (toLowerCase text)).foldl scoreWord 0

/-- An element of the array built by `suggestDecryption`. -/
structure Suggestion where
  shift : Int
  text : JSString
  score : Nat
  deriving DecidableEq, Repr

/-- The array `suggestions` after the loop `for (let shift = 1; shift <= 25; shift++)`
of `suggestDecryption`. The constructor call `new CaesarCipher()` only looks up
and wires page elements; it is taken to succeed, as it does on the tool's page. -/
def suggestionsUnsorted (cipherText : JSString) : List Suggestion :=
  (List.range' 1 25).map (fun (n : Nat) =>
    let decrypted := caesarDecrypt cipherText (n : Int)
    { shift := (n : Int), text := decrypted, score := calculateReadabilityScore decrypted })

/-- `CipherAnalyzer.suggestDecryption(cipherText)` (script.js, lines 242-258).
`suggestions.sort((a, b) => b.score - a.score)` is a stable sort (ECMAScript
2019) by a consistent comparator, so its result is the stably sorted array,
which insertion sort computes: an element goes in front of the first later
element whose score is not greater. -/
def suggestDecryption (cipherText : JSString) : List Suggestion :=
  (suggestionsUnsorted cipherText).insertionSort (fun a b => b.score ≤ a.score)

/-! ## Shift validation (app.js) -/

/-- A decimal digit `0-9`. -/
def isDigit (c : Nat) : Bool := decide (48 ≤ c) && decide (c ≤ 57)

/-- The value of a run of decimal digits. -/
def digitsValue (digits : JSString) : Int :=
  digits.foldl (fun acc d => 10 * acc + ((d : Int) - 48)) 0

/-- The call `parseInt(value, 10)` on a string, `none` standing for `NaN`:
leading white space is skipped, one sign `+` or `-` is read, then the longest
run of decimal digits; whatever follows is ignored, and an empty run gives
`NaN`. The value is kept as an exact integer; the double that JavaScript
rounds a long digit run to compares with 1 and 25 as the integer does. -/
def parseInt (value : JSString) : Option Int :=
  let trimmed := value.dropWhile isWhitespace
  let sign : Int := if trimmed.head? = some 45 then -1 else 1
  let body := if trimmed.head? = some 43 ∨ trimmed.head? = some 45 then trimmed.tail else trimmed
  let digits := body.takeWhile isDigit
  if digits.isEmpty then none else some (sign * digitsValue digits)

/-- `validateShift(value)` (app.js, lines 23-26):
`!isNaN(num) && num >= 1 && num <= 25` with `num = parseInt(value, 10)`. -/
def validateShift (value : JSString) : Bool :=
  match parseInt value with
  | none => false
  | some num => decide (num ≥ 1) && decide (num ≤ 25)

/-! ## Reference definitions, written from the specification -/

/-- Specification side: the alphabet base of a letter, 65 for `A-Z`, 97 for `a-z`. -/
def letterBase (c : Nat) : Int := if isUpperAZ c then 65 else 97

/-- Specification side: the reference transform of one character. A letter with
alphabet index `i` and base `b` becomes the character with code
`b + (((i + e) mod 26) + 26) mod 26` (`mod` being the remainder operator of the
implementation language); any other character is copied. -/
def referenceChar (e : Int) (c : Nat) : Nat :=
  if isAsciiLetter c then
    (letterBase c + ((((c : Int) - letterBase c + e).tmod 26) + 26).tmod 26).toNat
  else c

/-- Specification side: the reference transform, with `e = s` when encrypting
and `e = -s` when decrypting. -/
def referenceTransform (text : JSString) (s : Int) (isEncrypt : Bool) : JSString :=
  text.map (referenceChar (if isEncrypt then s else -s))

/-- Specification side: a letter with alphabet index `i` becomes the letter of
the same case at index `(i + s) mod 26`, `mod` the non-negative remainder; any
other character is copied. -/
def shiftLetterMod (s : Int) (c : Nat) : Nat :=
  if isAsciiLetter c then (letterBase c + ((c : Int) - letterBase c + s) % 26).toNat
  else c

/-- Specification side: the number of maximal runs of non-white-space
characters, counted by their first characters: a character starts a run when it
is not white space and is the first of the text or follows a white-space
character. `prevWs` says whether the previous character was white space (or
absent). -/
def countRunStarts : Bool → JSString → Nat
  | _, [] => 0
  | prevWs, c :: rest =>
    (if !isWhitespace c && prevWs then 1 else 0) + countRunStarts (isWhitespace c) rest

/-- Specification side: the number of words of a text. -/
def wordRuns (text : JSString) : Nat := countRunStarts true text

/-- Specification side: the value of a well-formed integer, a string made of an
optional sign `+` or `-` followed by one or more decimal digits and nothing
else; `none` for any other string. -/
def specIntegerValue (v : JSString) : Option Int :=
  let sign : Int := if v.head? = some 45 then -1 else 1
  let body := if v.head? = some 43 ∨ v.head? = some 45 then v.tail else v
  if body ≠ [] ∧ body.all isDigit then some (sign * digitsValue body) else none

/-! ## Arithmetic helpers -/

theorem tmod26_eq (a : Int) :
    a.tmod 26 = if 0 ≤ a then a % 26 else -((-a) % 26) := by
  split
  · next h => exact Int.tmod_eq_emod h (by decide)
  · next h =>
    cases a with
    | ofNat n => exact absurd (Int.ofNat_nonneg n) h
    | negSucc n =>
      have h1 : (Int.negSucc n).tmod 26 = -(((n + 1) % 26 : Nat) : Int) := rfl
      rw [h1]
      have h2 : -(Int.negSucc n) = ((n + 1 : Nat) : Int) := rfl
      rw [h2]
      omega

theorem isAsciiLetter_iff (c : Nat) :
    isAsciiLetter c = true ↔ (65 ≤ c ∧ c ≤ 90) ∨ (97 ≤ c ∧ c ≤ 122) := by
  simp [isAsciiLetter, isUpperAZ, isLowerAZ]
  omega

theorem isUpperAZ_iff (c : Nat) : isUpperAZ c = true ↔ 65 ≤ c ∧ c ≤ 90 := by
  simp [isUpperAZ]

theorem isLowerAZ_iff (c : Nat) : isLowerAZ c = true ↔ 97 ≤ c ∧ c ≤ 122 := by
  simp [isLowerAZ]

theorem encryptChar_nonletter (s : Int) (c : Nat) (h : isAsciiLetter c = false) :
    encryptChar s c = c := by
  simp [encryptChar, h]

theorem decryptChar_nonletter (s : Int) (c : Nat) (h : isAsciiLetter c = false) :
    decryptChar s c = c := by
  simp [decryptChar, h]

theorem cipherChar_nonletter (s : Int) (c : Nat) (h : isAsciiLetter c = false) :
    cipherChar s c = c := by
  simp [cipherChar, h]

/-- On a shift from 0 to 26 the encryption callback is the modular shift. -/
theorem encryptChar_eq_shiftLetterMod (s : Int) (c : Nat) (hs : 0 ≤ s) (_hb : s ≤ 26) :
    encryptChar s c = shiftLetterMod s c := by
  unfold encryptChar shiftLetterMod
  cases h : isAsciiLetter c
  · simp
  · rw [isAsciiLetter_iff] at h
    simp only [if_true, letterBase, isUpperAZ, fromCharCode, tmod26_eq]
    rcases h with h | h
    · have e1 : (65 ≤ c ∧ c ≤ 90) := h
      simp [e1]
      split <;> omega
    · have e1 : ¬ (65 ≤ c ∧ c ≤ 90) := by omega
      have e2 : ¬ (c ≤ 90) := by omega
      simp [e1, e2]
      split <;> omega

/-- On a shift from 0 to 26 the decryption callback is the modular shift by the
opposite amount. -/
theorem decryptChar_eq_shiftLetterMod (s : Int) (c : Nat) (_h0 : 0 ≤ s) (hs : s ≤ 26) :
    decryptChar s c = shiftLetterMod (-s) c := by
  unfold decryptChar shiftLetterMod
  cases h : isAsciiLetter c
  · simp
  · rw [isAsciiLetter_iff] at h
    simp only [if_true, letterBase, isUpperAZ, fromCharCode, tmod26_eq]
    rcases h with h | h
    · have e1 : (65 ≤ c ∧ c ≤ 90) := h
      simp [e1]
      split <;> omega
    · have e1 : ¬ (65 ≤ c ∧ c ≤ 90) := by omega
      have e2 : ¬ (c ≤ 90) := by omega
      simp [e1, e2]
      split <;> omega

/-- The modular shift of a letter is a letter of the same case. -/
theorem shiftLetterMod_case (s : Int) (c : Nat) :
    (isUpperAZ c = true → isUpperAZ (shiftLetterMod s c) = true) ∧
    (isLowerAZ c = true → isLowerAZ (shiftLetterMod s c) = true) := by
  simp only [isUpperAZ_iff, isLowerAZ_iff]
  unfold shiftLetterMod
  constructor
  · intro h
    have hl : isAsciiLetter c = true := (isAsciiLetter_iff c).2 (Or.inl h)
    have hu : isUpperAZ c = true := (isUpperAZ_iff c).2 h
    simp only [hl, if_true, letterBase, hu]
    omega
  · intro h
    have hl : isAsciiLetter c = true := (isAsciiLetter_iff c).2 (Or.inr h)
    have hu : isUpperAZ c = false := by
      cases hx : isUpperAZ c
      · rfl
      · rw [isUpperAZ_iff] at hx; omega
    simp only [hl, if_true, letterBase, hu]
    simp
    omega

/-- Shifting by `s` and then by `-s` gives the character back. -/
theorem shiftLetterMod_neg_cancel (s : Int) (c : Nat) :
    shiftLetterMod (-s) (shiftLetterMod s c) = c := by
  cases h : isAsciiLetter c
  · simp [shiftLetterMod, h]
  · rw [isAsciiLetter_iff] at h
    rcases h with h | h
    · have hu : isUpperAZ c = true := (isUpperAZ_iff c).2 h
      have hl : isAsciiLetter c = true := (isAsciiLetter_iff c).2 (Or.inl h)
      have hu2 := (shiftLetterMod_case s c).1 hu
      have hl2 : isAsciiLetter (shiftLetterMod s c) = true := by
        rw [isAsciiLetter_iff]; rw [isUpperAZ_iff] at hu2; exact Or.inl hu2
      have hv : shiftLetterMod s c = (65 + ((c : Int) - 65 + s) % 26).toNat := by
        simp [shiftLetterMod, hl, letterBase, hu]
      rw [shiftLetterMod.eq_1 (-s), if_pos hl2]
      simp only [letterBase, hu2, if_true]
      rw [hv]
      omega
    · have hu : isUpperAZ c = false := by
        cases hx : isUpperAZ c
        · rfl
        · rw [isUpperAZ_iff] at hx; omega
      have hlo : isLowerAZ c = true := (isLowerAZ_iff c).2 h
      have hl : isAsciiLetter c = true := (isAsciiLetter_iff c).2 (Or.inr h)
      have hlo2 := (shiftLetterMod_case s c).2 hlo
      have hl2 : isAsciiLetter (shiftLetterMod s c) = true := by
        rw [isAsciiLetter_iff]; rw [isLowerAZ_iff] at hlo2; exact Or.inr hlo2
      have hu2 : isUpperAZ (shiftLetterMod s c) = false := by
        cases hx : isUpperAZ (shiftLetterMod s c)
        · rfl
        · rw [isUpperAZ_iff] at hx; rw [isLowerAZ_iff] at hlo2; omega
      have hv : shiftLetterMod s c = (97 + ((c : Int) - 97 + s) % 26).toNat := by
        simp [shiftLetterMod, hl, letterBase, hu]
      rw [shiftLetterMod.eq_1 (-s), if_pos hl2]
      simp only [letterBase, hu2]
      rw [hv]
      simp
      omega

/-- A shift by a multiple of 26 leaves every character as it is. -/
theorem shiftLetterMod_of_dvd (s : Int) (c : Nat) (hs : s % 26 = 0) :
    shiftLetterMod s c = c := by
  unfold shiftLetterMod
  cases h : isAsciiLetter c
  · simp
  · rw [isAsciiLetter_iff] at h
    simp only [if_true, letterBase, isUpperAZ]
    rcases h with h | h
    · have e1 : (65 ≤ c ∧ c ≤ 90) := h
      simp [e1]
      omega
    · have e2 : ¬ (c ≤ 90) := by omega
      simp [e2]
      omega

/-- The replacer of `caesarCipher`, run on the normalised shift of `e`, is the
modular shift by `e`. -/
theorem cipherChar_eq_shiftLetterMod (e : Int) (c : Nat) :
    cipherChar (((e.tmod 26) + 26).tmod 26) c = shiftLetterMod e c := by
  unfold cipherChar shiftLetterMod
  cases h : isAsciiLetter c
  · simp
  · rw [isAsciiLetter_iff] at h
    simp only [if_true, letterBase, isUpperAZ, fromCharCode, tmod26_eq]
    rcases h with h | h
    · have e1 : (65 ≤ c ∧ c ≤ 90) := h
      simp [e1]
      split <;> split <;> split <;> omega
    · have e2 : ¬ (c ≤ 90) := by omega
      simp [e2]
      split <;> split <;> split <;> omega

/-- The reference character transform is the modular shift. -/
theorem referenceChar_eq_shiftLetterMod (e : Int) (c : Nat) :
    referenceChar e c = shiftLetterMod e c := by
  unfold referenceChar shiftLetterMod
  cases h : isAsciiLetter c
  · simp
  · rw [isAsciiLetter_iff] at h
    simp only [if_true, letterBase, isUpperAZ, tmod26_eq]
    rcases h with h | h
    · have e1 : (65 ≤ c ∧ c ≤ 90) := h
      simp [e1]
      split <;> split <;> omega
    · have e2 : ¬ (c ≤ 90) := by omega
      simp [e2]
      split <;> split <;> omega

/-- The function `caesarCipher` maps the modular shift over the text, for every
integer shift and either direction. -/
theorem caesarCipher_eq_map (T : JSString) (s : Int) (d : Bool) :
    caesarCipher T s d = T.map (shiftLetterMod (if d then s else -s)) := by
  unfold caesarCipher
  cases T with
  | nil => simp
  | cons c T =>
    have hmap : ∀ e : Int, cipherChar (((e.tmod 26) + 26).tmod 26) = shiftLetterMod e :=
      fun e => funext (cipherChar_eq_shiftLetterMod e)
    cases d
    · have : s * (-1) = -s := by ring
      simp [this, hmap]
    · simp [hmap]

/-! ## The cipher engine -/

/-- C1. Round trip: for every text `T` and every integer shift `S` with
`1 ≤ S ≤ 25`, `caesarDecrypt(caesarEncrypt(T, S), S)` equals `T`. -/
theorem caesarDecrypt_caesarEncrypt (T : JSString) (S : Int) (h1 : 1 ≤ S) (h25 : S ≤ 25) :
    caesarDecrypt (caesarEncrypt T S) S = T := by
  unfold caesarDecrypt caesarEncrypt
  rw [List.map_map]
  have hid : (decryptChar S ∘ encryptChar S) = id := by
    funext c
    simp only [Function.comp_apply, id_eq]
    rw [encryptChar_eq_shiftLetterMod S c (by omega) (by omega),
      decryptChar_eq_shiftLetterMod S _ (by omega) (by omega)]
    exact shiftLetterMod_neg_cancel S c
  rw [hid, List.map_id]

/-- Witness of C1 at the text `Hello, World!` and the shift 3. -/
theorem caesarDecrypt_caesarEncrypt_witness :
    caesarDecrypt (caesarEncrypt (ofString "Hello, World!") 3) 3 = ofString "Hello, World!" :=
  caesarDecrypt_caesarEncrypt (ofString "Hello, World!") 3 (by decide) (by decide)

/-- C2. For every text, every integer shift (any sign, any magnitude) and either
direction, `caesarCipher` equals the reference transform, which replaces a
letter of index `i` and base `b` by the character of code
`b + (((i + e) mod 26) + 26) mod 26`, that is `b` plus the non-negative
remainder of `i + e` by 26, and copies every other character; on the two
examples of the specification it gives `Khoor, Zruog!` and `bcd YZA`. -/
theorem caesarCipher_eq_referenceTransform (T : JSString) (s : Int) (isEncrypt : Bool) :
    caesarCipher T s isEncrypt = referenceTransform T s isEncrypt ∧
    referenceTransform T s isEncrypt =
      T.map (fun c => if isAsciiLetter c
        then (letterBase c + ((c : Int) - letterBase c + (if isEncrypt then s else -s)) % 26).toNat
        else c) ∧
    caesarCipher (ofString "Hello, World!") 3 true = ofString "Khoor, Zruog!" ∧
    caesarCipher (ofString "abc XYZ") 1 true = ofString "bcd YZA" := by
  have href : referenceTransform T s isEncrypt
      = T.map (shiftLetterMod (if isEncrypt then s else -s)) := by
    unfold referenceTransform
    congr 1
    funext c
    exact referenceChar_eq_shiftLetterMod _ c
  refine ⟨?_, ?_, by decide, by decide⟩
  · rw [href, caesarCipher_eq_map]
  · rw [href]
    rfl

/-- C3, at the failing inputs. The claim asks that `caesarEncrypt` and
`caesarDecrypt` normalise every integer shift modulo 26, so that a letter maps
to a letter of the same case; the comments of script.js give the same formulas,
`C = (P + K) mod 26` and `P = (C - K) mod 26`. The code does not:
`caesarEncrypt("a", -1)` and `caesarDecrypt("a", 27)` both return the character
of code 96, which is no letter, where index `(0 - 1) mod 26 = 25` and index
`(0 - 27) mod 26 = 25` are the letter `z`; the sibling `caesarCipher` of app.js
returns `z` on both. -/
theorem caesar_shift_not_normalised :
    caesarEncrypt (ofString "a") (-1) = [96] ∧
    caesarDecrypt (ofString "a") 27 = [96] ∧
    isAsciiLetter 96 = false ∧
    (ofString "a").map (shiftLetterMod (-1)) = ofString "z" ∧
    (ofString "a").map (shiftLetterMod (-27)) = ofString "z" ∧
    caesarEncrypt (ofString "a") (-1) ≠ (ofString "a").map (shiftLetterMod (-1)) ∧
    caesarDecrypt (ofString "a") 27 ≠ (ofString "a").map (shiftLetterMod (-27)) ∧
    caesarCipher (ofString "a") (-1) true = ofString "z" ∧
    caesarCipher (ofString "a") 27 false = ofString "z" := by
  decide

/-- The replacer of `caesarCipher` run over a text, for any normalised shift:
the early return on the empty text agrees with the map. -/
theorem caesarCipher_eq_map_cipherChar (T : JSString) (S : Int) (d : Bool) :
    caesarCipher T S d =
      T.map (cipherChar ((((S * (if d then 1 else -1)).tmod 26) + 26).tmod 26)) := by
  unfold caesarCipher
  cases T with
  | nil => rfl
  | cons c T => simp

/-- A map that fixes the characters outside the letters keeps them in place. -/
theorem map_keeps_nonletters (f : Nat → Nat)
    (hf : ∀ c, isAsciiLetter c = false → f c = c) (T : JSString) :
    (T.map f).length = T.length ∧
    (∀ (i : Nat) (c : Nat), T[i]? = some c → isAsciiLetter c = false → (T.map f)[i]? = some c) ∧
    ((∀ c ∈ T, isAsciiLetter c = false) → T.map f = T) := by
  refine ⟨List.length_map _ _, ?_, ?_⟩
  · intro i c hi hc
    rw [List.getElem?_map, hi]
    simp [hf c hc]
  · intro h
    induction T with
    | nil => rfl
    | cons a T ih =>
      rw [List.map_cons, hf a (h a (List.mem_cons_self a T)),
        ih (fun c hc => h c (List.mem_cons_of_mem a hc))]

/-- C4. For every text `T`, every integer shift `S` and either direction `d`,
the outputs of `caesarEncrypt`, `caesarDecrypt` and `caesarCipher` have the
length of `T` and hold, at every position where `T` has a character that is
not an ASCII letter, that same character; a text with no ASCII letters is
returned unchanged. -/
theorem cipher_frame (T : JSString) (S : Int) (d : Bool) :
    ((caesarEncrypt T S).length = T.length ∧
      (caesarDecrypt T S).length = T.length ∧
      (caesarCipher T S d).length = T.length) ∧
    (∀ (i : Nat) (c : Nat), T[i]? = some c → isAsciiLetter c = false →
      (caesarEncrypt T S)[i]? = some c ∧
      (caesarDecrypt T S)[i]? = some c ∧
      (caesarCipher T S d)[i]? = some c) ∧
    ((∀ c ∈ T, isAsciiLetter c = false) →
      caesarEncrypt T S = T ∧ caesarDecrypt T S = T ∧ caesarCipher T S d = T) := by
  have he := map_keeps_nonletters (encryptChar S) (encryptChar_nonletter S) T
  have hd := map_keeps_nonletters (decryptChar S) (decryptChar_nonletter S) T
  have hc := map_keeps_nonletters _
    (cipherChar_nonletter ((((S * (if d then 1 else -1)).tmod 26) + 26).tmod 26)) T
  rw [← caesarCipher_eq_map_cipherChar] at hc
  exact ⟨⟨he.1, hd.1, hc.1⟩,
    fun i c hi hl => ⟨he.2.1 i c hi hl, hd.2.1 i c hi hl, hc.2.1 i c hi hl⟩,
    fun h => ⟨he.2.2 h, hd.2.2 h, hc.2.2 h⟩⟩

/-- Witness of C4: in `a-b` the hyphen at position 1 stays in place under the
shift -100, and the letterless text `1, 2!` comes back unchanged. -/
theorem cipher_frame_witness :
    ((caesarEncrypt (ofString "a-b") (-100))[1]? = some 45 ∧
      (caesarDecrypt (ofString "a-b") (-100))[1]? = some 45 ∧
      (caesarCipher (ofString "a-b") (-100) false)[1]? = some 45) ∧
    (caesarEncrypt (ofString "1, 2!") 1000 = ofString "1, 2!" ∧
      caesarDecrypt (ofString "1, 2!") 1000 = ofString "1, 2!" ∧
      caesarCipher (ofString "1, 2!") 1000 true = ofString "1, 2!") :=
  ⟨(cipher_frame (ofString "a-b") (-100) false).2.1 1 45 (by decide) (by decide),
    (cipher_frame (ofString "1, 2!") 1000 true).2.2 (by decide)⟩

/-- C8. For every text `T`, a shift of 0 or of 26 is the identity:
`caesarEncrypt(T, 26) = T`, `caesarEncrypt(T, 0) = T`, `caesarDecrypt(T, 26) = T`
and `caesarDecrypt(T, 0) = T`. -/
theorem caesar_identity_shift (T : JSString) :
    caesarEncrypt T 26 = T ∧ caesarEncrypt T 0 = T ∧
    caesarDecrypt T 26 = T ∧ caesarDecrypt T 0 = T := by
  have henc : ∀ s : Int, 0 ≤ s → s ≤ 26 → s % 26 = 0 → caesarEncrypt T s = T := by
    intro s h0 h26 hs
    unfold caesarEncrypt
    have : encryptChar s = id := by
      funext c
      rw [encryptChar_eq_shiftLetterMod s c h0 h26]
      exact shiftLetterMod_of_dvd s c hs
    rw [this, List.map_id]
  have hdec : ∀ s : Int, 0 ≤ s → s ≤ 26 → (-s) % 26 = 0 → caesarDecrypt T s = T := by
    intro s h0 h26 hs
    unfold caesarDecrypt
    have : decryptChar s = id := by
      funext c
      rw [decryptChar_eq_shiftLetterMod s c h0 h26]
      exact shiftLetterMod_of_dvd (-s) c hs
    rw [this, List.map_id]
  exact ⟨henc 26 (by decide) (by decide) (by decide), henc 0 (by decide) (by decide) (by decide),
    hdec 26 (by decide) (by decide) (by decide), hdec 0 (by decide) (by decide) (by decide)⟩

/-- C10. The two cipher implementations agree on validated shifts: for every
text `T` and every integer shift `S` with `1 ≤ S ≤ 25`, `caesarCipher(T, S, true)`
of app.js equals `caesarEncrypt(T, S)` of script.js, and
`caesarCipher(T, S, false)` equals `caesarDecrypt(T, S)`. -/
theorem caesarCipher_agrees (T : JSString) (S : Int) (h1 : 1 ≤ S) (h25 : S ≤ 25) :
    caesarCipher T S true = caesarEncrypt T S ∧
    caesarCipher T S false = caesarDecrypt T S := by
  constructor
  · rw [caesarCipher_eq_map]
    unfold caesarEncrypt
    congr 1
    funext c
    exact (encryptChar_eq_shiftLetterMod S c (by omega) (by omega)).symm
  · rw [caesarCipher_eq_map]
    unfold caesarDecrypt
    congr 1
    funext c
    exact (decryptChar_eq_shiftLetterMod S c (by omega) (by omega)).symm

/-- Witness of C10 at the text `abc XYZ` and the shift 25. -/
theorem caesarCipher_agrees_witness :
    caesarCipher (ofString "abc XYZ") 25 true = caesarEncrypt (ofString "abc XYZ") 25 ∧
    caesarCipher (ofString "abc XYZ") 25 false = caesarDecrypt (ofString "abc XYZ") 25 :=
  caesarCipher_agrees (ofString "abc XYZ") 25 (by decide) (by decide)

/-! ## The text analyser -/

/-- The shifts of the candidates before sorting are 1, 2, ..., 25 in order. -/
theorem suggestionsUnsorted_shifts (C : JSString) :
    (suggestionsUnsorted C).map Suggestion.shift = (List.range' 1 25).map Int.ofNat := by
  unfold suggestionsUnsorted
  rw [List.map_map]
  rfl

/-- Every candidate built by the loop carries the decryption for its shift and
the score of that decryption. -/
theorem suggestionsUnsorted_mem (C : JSString) (c : Suggestion)
    (hc : c ∈ suggestionsUnsorted C) :
    c.text = caesarDecrypt C c.shift ∧ c.score = calculateReadabilityScore c.text := by
  unfold suggestionsUnsorted at hc
  rw [List.mem_map] at hc
  obtain ⟨n, _, rfl⟩ := hc
  exact ⟨rfl, rfl⟩

/-- Each of 1, ..., 25 occurs once in the list of the loop's shifts. -/
theorem count_shift_range (s : Int) (h1 : 1 ≤ s) (h25 : s ≤ 25) :
    ((List.range' 1 25).map Int.ofNat).count s = 1 := by
  interval_cases s <;> decide

/-- C5. For every cipher text `C`, `suggestDecryption(C)` returns a list of
exactly 25 candidates in which each shift 1..25 occurs exactly once, each
candidate's text is `caesarDecrypt(C, shift)` and its score is
`calculateReadabilityScore` of that text, and the scores are non-increasing
along the list. -/
theorem suggestDecryption_complete (C : JSString) :
    (suggestDecryption C).length = 25 ∧
    ((suggestDecryption C).map Suggestion.shift).Perm ((List.range' 1 25).map Int.ofNat) ∧
    (∀ s : Int, 1 ≤ s → s ≤ 25 → ((suggestDecryption C).map Suggestion.shift).count s = 1) ∧
    (∀ c ∈ suggestDecryption C,
      c.text = caesarDecrypt C c.shift ∧ c.score = calculateReadabilityScore c.text) ∧
    (suggestDecryption C).Pairwise (fun a b => b.score ≤ a.score) := by
  have hperm : (suggestDecryption C).Perm (suggestionsUnsorted C) :=
    List.perm_insertionSort _ _
  have hshift : ((suggestDecryption C).map Suggestion.shift).Perm
      ((List.range' 1 25).map Int.ofNat) := by
    rw [← suggestionsUnsorted_shifts C]
    exact hperm.map _
  refine ⟨?_, hshift, ?_, ?_, ?_⟩
  · rw [hperm.length_eq]
    unfold suggestionsUnsorted
    rw [List.length_map, List.length_range']
  · intro s h1 h25
    rw [hshift.count_eq]
    exact count_shift_range s h1 h25
  · intro c hc
    exact suggestionsUnsorted_mem C c (hperm.mem_iff.1 hc)
  · haveI : IsTotal Suggestion (fun a b => b.score ≤ a.score) :=
      ⟨fun a b => Nat.le_total b.score a.score⟩
    haveI : IsTrans Suggestion (fun a b => b.score ≤ a.score) :=
      ⟨fun _ _ _ hab hbc => Nat.le_trans hbc hab⟩
    exact List.sorted_insertionSort (fun a b : Suggestion => b.score ≤ a.score) _

/-- Witness of C5 on the cipher text `Wkh gdb`: the shift 3 occurs once, and
a candidate in the list has the decryption and the score of its shift. -/
theorem suggestDecryption_complete_witness :
    ((suggestDecryption (ofString "Wkh gdb")).map Suggestion.shift).count 3 = 1 ∧
    (ofString "The day" = caesarDecrypt (ofString "Wkh gdb") 3 ∧
      6 = calculateReadabilityScore (ofString "The day")) :=
  ⟨(suggestDecryption_complete (ofString "Wkh gdb")).2.2.1 3 (by decide) (by decide),
    (suggestDecryption_complete (ofString "Wkh gdb")).2.2.2.1
      ⟨3, ofString "The day", 6⟩ (by decide)⟩

/-- One counting step adds one to the sum of the counts. -/
theorem totalCount_bump (f : List (Nat × Nat)) (c : Nat) :
    totalCount (bump f c) = totalCount f + 1 := by
  induction f with
  | nil => simp [bump, totalCount]
  | cons kn rest ih =>
    obtain ⟨k, n⟩ := kn
    unfold bump
    split
    · simp [totalCount]; omega
    · simp only [totalCount, List.map_cons, List.sum_cons] at ih ⊢
      omega

/-- The counting loop adds the number of characters it reads. -/
theorem totalCount_foldl_bump (l : List Nat) (f : List (Nat × Nat)) :
    totalCount (l.foldl bump f) = totalCount f + l.length := by
  induction l generalizing f with
  | nil => simp
  | cons c l ih =>
    rw [List.foldl_cons, ih, totalCount_bump, List.length_cons]
    omega

/-- The number of `a-z` characters in the lower-cased text. -/
theorem length_filter_toLowerCase (T : JSString) :
    ((toLowerCase T).filter isLowerAZ).length =
      T.countP (fun c => isAsciiLetter c || c == 304 || c == 8490) := by
  induction T with
  | nil => rfl
  | cons c T ih =>
    have hcons : toLowerCase (c :: T) = toLowerUnit c ++ toLowerCase T := by
      simp [toLowerCase]
    rw [hcons, List.filter_append, List.length_append, ih, List.countP_cons]
    have hunit : ((toLowerUnit c).filter isLowerAZ).length =
        if (isAsciiLetter c || c == 304 || c == 8490) = true then 1 else 0 := by
      unfold toLowerUnit
      by_cases hu : isUpperAZ c = true
      · have h1 := (isUpperAZ_iff c).1 hu
        have h2 : isLowerAZ (c + 32) = true := by rw [isLowerAZ_iff]; omega
        have h3 : isAsciiLetter c = true := (isAsciiLetter_iff c).2 (Or.inl h1)
        simp [hu, h2, h3, List.filter]
      · have hu2 : ¬ (65 ≤ c ∧ c ≤ 90) := fun h => hu ((isUpperAZ_iff c).2 h)
        rw [if_neg hu]
        by_cases h304 : c = 304
        · subst h304; decide
        · by_cases h8490 : c = 8490
          · subst h8490; decide
          · rw [if_neg h304, if_neg h8490]
            by_cases hl : isLowerAZ c = true
            · have h3 : isAsciiLetter c = true :=
                (isAsciiLetter_iff c).2 (Or.inr ((isLowerAZ_iff c).1 hl))
              simp [List.filter, hl, h3]
            · have hl2 : ¬ (97 ≤ c ∧ c ≤ 122) := fun h => hl ((isLowerAZ_iff c).2 h)
              have h3 : isAsciiLetter c = false := by
                cases hx : isAsciiLetter c
                · rfl
                · rw [isAsciiLetter_iff] at hx; omega
              have hl3 : isLowerAZ c = false := by
                cases hx : isLowerAZ c
                · rfl
                · exact absurd hx hl
              simp [List.filter, hl3, h3, h304, h8490]
    rw [hunit]
    omega

/-- C6, as stated, fails on a text outside ASCII: for the one-character text
U+212A (KELVIN SIGN) the table of `frequencyAnalysis` is `{k: 1}`, of sum 1,
and the text has no ASCII letter; for U+0130 the table is `{i: 1}`. -/
theorem frequency_sum_not_ascii_letters :
    frequencyAnalysis [8490] = [(107, 1)] ∧
    totalCount (frequencyAnalysis [8490]) = 1 ∧
    List.countP isAsciiLetter [8490] = 0 ∧
    totalCount (frequencyAnalysis [8490]) ≠ List.countP isAsciiLetter [8490] ∧
    totalCount (frequencyAnalysis [304]) ≠ List.countP isAsciiLetter [304] := by
  decide

/-- C6, amended. For every text `T`, the sum of all counts in
`frequencyAnalysis(T)` equals the number of characters of the lower-cased text
that are in `a-z`, which is the number of characters of `T` that are ASCII
letters or one of U+0130 and U+212A (whose lower-case forms hold `i` and `k`);
for a text without these two characters it is the number of ASCII letters. -/
theorem frequency_sum (T : JSString) :
    totalCount (frequencyAnalysis T) = ((toLowerCase T).filter isLowerAZ).length ∧
    totalCount (frequencyAnalysis T) =
      T.countP (fun c => isAsciiLetter c || c == 304 || c == 8490) ∧
    ((∀ c ∈ T, c ≠ 304 ∧ c ≠ 8490) →
      totalCount (frequencyAnalysis T) = T.countP isAsciiLetter) := by
  have h1 : totalCount (frequencyAnalysis T) = ((toLowerCase T).filter isLowerAZ).length := by
    unfold frequencyAnalysis
    rw [totalCount_foldl_bump]
    simp [totalCount]
  refine ⟨h1, ?_, ?_⟩
  · rw [h1, length_filter_toLowerCase]
  · intro h
    rw [h1, length_filter_toLowerCase]
    apply List.countP_congr
    intro c hc
    have := h c hc
    simp [this.1, this.2]

/-- Witness of the amended C6 on the text `AAB, c!`, which has four ASCII
letters. -/
theorem frequency_sum_witness :
    totalCount (frequencyAnalysis (ofString "AAB, c!")) = 4 :=
  ((frequency_sum (ofString "AAB, c!")).2.2 (by decide)).trans (by decide)

/-- The number of non-empty pieces produced by the split loop: the runs still
to be started, plus one for the piece being read. -/
theorem splitAux_count (text cur : JSString) (skipping : Bool)
    (hinv : skipping = true → cur = []) :
    ((splitAux text cur skipping).filter (fun word => decide (word.length > 0))).length =
      if cur = [] then countRunStarts true text else 1 + countRunStarts false text := by
  induction text generalizing cur skipping with
  | nil =>
    cases cur with
    | nil => simp [splitAux, countRunStarts]
    | cons a cur => simp [splitAux, countRunStarts]
  | cons c rest ih =>
    unfold splitAux
    cases hc : isWhitespace c
    · have hstep := ih (c :: cur) false (by intro h; cases h)
      simp only [Bool.false_eq_true, if_false]
      rw [hstep]
      cases cur with
      | nil => simp [countRunStarts, hc]
      | cons a cur => simp [countRunStarts, hc]
    · have hstep := ih [] true (fun _ => rfl)
      simp only [if_true] at hstep ⊢
      cases hsk : skipping
      · simp only [Bool.false_eq_true, if_false]
        cases cur with
        | nil => simp [List.filter, hstep, countRunStarts, hc]
        | cons a cur => simp [List.filter, hstep, countRunStarts, hc]; omega
      · simp only [if_true]
        rw [hstep, hinv hsk]
        simp [countRunStarts, hc]

/-- The field `words` of `analyzeText` counts the runs. -/
theorem words_eq_wordRuns (T : JSString) : (analyzeText T).words = wordRuns T := by
  have h := splitAux_count T [] false (by intro h; cases h)
  simpa [analyzeText, splitWhitespace, wordRuns] using h

/-- White space at the start of a text starts no run. -/
theorem countRunStarts_leading (w T : JSString) (b : Bool)
    (hw : ∀ c ∈ w, isWhitespace c = true) (hb : w ≠ [] ∨ b = true) :
    countRunStarts b (w ++ T) = countRunStarts true T := by
  induction w generalizing b with
  | nil =>
    rcases hb with hb | hb
    · exact absurd rfl hb
    · subst hb; rfl
  | cons c w ih =>
    have hc := hw c (List.mem_cons_self c w)
    rw [List.cons_append, countRunStarts, hc]
    simp only [Bool.not_true, Bool.false_and, Bool.false_eq_true, if_false, Nat.zero_add]
    exact ih true (fun x hx => hw x (List.mem_cons_of_mem c hx)) (Or.inr rfl)

/-- The runs of a text followed by white space are the runs of the text. -/
theorem countRunStarts_trailing (T w : JSString) (b : Bool)
    (hw : ∀ c ∈ w, isWhitespace c = true) :
    countRunStarts b (T ++ w) = countRunStarts b T := by
  induction T generalizing b with
  | nil =>
    induction w generalizing b with
    | nil => rfl
    | cons c w ih =>
      have hc := hw c (List.mem_cons_self c w)
      have hrec := ih (fun x hx => hw x (List.mem_cons_of_mem c hx)) true
      simp only [List.nil_append, countRunStarts] at hrec ⊢
      simp [hc, hrec]
  | cons a T ih =>
    rw [List.cons_append, countRunStarts, countRunStarts, ih]

/-- The runs of a concatenation depend on the second part through its own runs
only, given how the first part ends. -/
theorem countRunStarts_append_congr (A X Y : JSString) (b : Bool)
    (h : ∀ b2 : Bool, countRunStarts b2 X = countRunStarts b2 Y) :
    countRunStarts b (A ++ X) = countRunStarts b (A ++ Y) := by
  induction A generalizing b with
  | nil => exact h b
  | cons a A ih =>
    rw [List.cons_append, List.cons_append, countRunStarts, countRunStarts, ih]

/-- C9. For every text `T`, the `words` field of `analyzeText(T)` equals the
number of maximal runs of non-white-space characters in `T`; leading, trailing
and repeated white space add no words, a text that is empty or all white space
has 0 words, and `analyzeText("Hi there!")` has `words = 2`. -/
theorem analyzeText_words (T : JSString) :
    (analyzeText T).words = wordRuns T ∧
    (∀ w : JSString, (∀ c ∈ w, isWhitespace c = true) →
      (analyzeText (w ++ T)).words = (analyzeText T).words ∧
      (analyzeText (T ++ w)).words = (analyzeText T).words) ∧
    (∀ (A B w : JSString) (c : Nat), isWhitespace c = true →
      (∀ x ∈ w, isWhitespace x = true) →
      (analyzeText (A ++ c :: (w ++ B))).words = (analyzeText (A ++ c :: B)).words) ∧
    ((∀ c ∈ T, isWhitespace c = true) → (analyzeText T).words = 0) ∧
    (analyzeText (ofString "Hi there!")).words = 2 := by
  refine ⟨words_eq_wordRuns T, ?_, ?_, ?_, by decide⟩
  · intro w hw
    rw [words_eq_wordRuns, words_eq_wordRuns, words_eq_wordRuns]
    exact ⟨countRunStarts_leading w T true hw (Or.inr rfl),
      countRunStarts_trailing T w true hw⟩
  · intro A B w c hc hw
    rw [words_eq_wordRuns, words_eq_wordRuns]
    apply countRunStarts_append_congr
    intro b2
    rw [countRunStarts, countRunStarts, hc]
    rw [countRunStarts_leading w B true hw (Or.inr rfl)]
  · intro hT
    rw [words_eq_wordRuns]
    have h := countRunStarts_leading T [] true hT (Or.inr rfl)
    rw [List.append_nil] at h
    exact h

/-- Witness of C9: two leading blanks, a doubled blank and a trailing newline
add no word to `Hi there!`, and a text of blanks has no word. -/
theorem analyzeText_words_witness :
    (analyzeText (ofString "  Hi there!")).words = 2 ∧
    (analyzeText (ofString "Hi there!\n")).words = 2 ∧
    (analyzeText (ofString "Hi  there!")).words = 2 ∧
    (analyzeText (ofString " \t ")).words = 0 :=
  ⟨(((analyzeText_words (ofString "Hi there!")).2.1 (ofString "  ") (by decide)).1).trans
      (by decide),
    (((analyzeText_words (ofString "Hi there!")).2.1 (ofString "\n") (by decide)).2).trans
      (by decide),
    ((analyzeText_words []).2.2.1 (ofString "Hi") (ofString "there!") (ofString " ") 32
      (by decide) (by decide)).trans (by decide),
    (analyzeText_words (ofString " \t ")).2.2.2.1 (by decide)⟩

/-! ## Shift validation -/

/-- A decimal digit is not white space. -/
theorem isWhitespace_of_isDigit (c : Nat) (h : isDigit c = true) : isWhitespace c = false := by
  simp only [isDigit, Bool.and_eq_true, decide_eq_true_eq] at h
  cases hw : isWhitespace c
  · rfl
  · simp only [isWhitespace, Bool.or_eq_true, Bool.and_eq_true, decide_eq_true_eq,
      beq_iff_eq] at hw
    omega

/-- The integer read by `parseInt` from a text that starts, with no white space
in front, with the sign and the digit run chosen as `parseInt` chooses them. -/
theorem parseInt_cons (a : Nat) (t : JSString) (hws : isWhitespace a = false) :
    parseInt (a :: t) =
      (if ((if a = 43 ∨ a = 45 then t else a :: t).takeWhile isDigit).isEmpty then none
       else some ((if a = 45 then -1 else 1) *
        digitsValue ((if a = 43 ∨ a = 45 then t else a :: t).takeWhile isDigit))) := by
  unfold parseInt
  simp [List.dropWhile, hws]

/-- On a well-formed integer `parseInt` reads the whole string. -/
theorem parseInt_of_specIntegerValue (v : JSString) (n : Int)
    (h : specIntegerValue v = some n) : parseInt v = some n := by
  unfold specIntegerValue at h
  cases v with
  | nil => simp at h
  | cons a t =>
    simp only [List.head?_cons, Option.some.injEq, List.tail_cons] at h
    generalize hb : (if a = 43 ∨ a = 45 then t else a :: t) = body at h
    by_cases hcond : body ≠ [] ∧ body.all isDigit = true
    · rw [if_pos hcond] at h
      obtain ⟨hne, hall⟩ := hcond
      have htake : body.takeWhile isDigit = body := by
        rw [List.takeWhile_eq_self_iff]
        intro x hx
        exact (List.all_eq_true.1 hall) x hx
      have hws : isWhitespace a = false := by
        by_cases hs : a = 43 ∨ a = 45
        · rcases hs with hs | hs <;> subst hs <;> decide
        · rw [if_neg hs] at hb
          subst hb
          exact isWhitespace_of_isDigit a
            ((List.all_eq_true.1 hall) a (List.mem_cons_self a t))
      rw [parseInt_cons a t hws, hb, htake]
      have hemp : body.isEmpty = false := by
        cases body with
        | nil => exact absurd rfl hne
        | cons x xs => rfl
      rw [hemp]
      simpa using h
    · rw [if_neg hcond] at h
      cases h

/-- What `validateShift` answers, in terms of the number read by `parseInt`. -/
theorem validateShift_iff (v : JSString) :
    validateShift v = true ↔ ∃ n : Int, parseInt v = some n ∧ 1 ≤ n ∧ n ≤ 25 := by
  unfold validateShift
  cases h : parseInt v with
  | none => simp
  | some num => simp

/-- C7, as stated, fails: `12abc` is not a well-formed integer, and `3.7` is
not one either, yet `validateShift` accepts both, reading 12 and 3. -/
theorem validateShift_accepts_non_integer :
    specIntegerValue (ofString "12abc") = none ∧
    validateShift (ofString "12abc") = true ∧
    parseInt (ofString "12abc") = some 12 ∧
    specIntegerValue (ofString "3.7") = none ∧
    validateShift (ofString "3.7") = true := by
  decide

/-- C7, amended. For every input string `v`, `validateShift(v)` returns true
exactly when `parseInt(v, 10)`, the integer written by the longest run of
decimal digits after leading white space and one optional sign, is a number `n`
with `1 ≤ n ≤ 25`; what follows the digit run is ignored. A well-formed
integer (optional sign, then digits only) is accepted exactly when its value is
in `[1, 25]`, so 0 and 26 are rejected; a string that does not start with such
a digit run is rejected. -/
theorem validateShift_spec (v : JSString) :
    (validateShift v = true ↔ ∃ n : Int, parseInt v = some n ∧ 1 ≤ n ∧ n ≤ 25) ∧
    (∀ n : Int, specIntegerValue v = some n → (validateShift v = true ↔ 1 ≤ n ∧ n ≤ 25)) ∧
    (parseInt v = none → validateShift v = false) ∧
    validateShift (ofString "0") = false ∧ validateShift (ofString "26") = false := by
  refine ⟨validateShift_iff v, ?_, ?_, by decide, by decide⟩
  · intro n hn
    rw [validateShift_iff, parseInt_of_specIntegerValue v n hn]
    simp
  · intro h
    unfold validateShift
    rw [h]

/-- Witness of the amended C7: `25` is a well-formed integer of value 25 and is
accepted; `abc` holds no number and is rejected. -/
theorem validateShift_spec_witness :
    validateShift (ofString "25") = true ∧ validateShift (ofString "abc") = false :=
  ⟨((validateShift_spec (ofString "25")).2.1 25 (by decide)).2 (by decide),
    (validateShift_spec (ofString "abc")).2.2.1 (by decide)⟩

end CaesarCipherTool
